import Mathlib

/-!
Verification of the dynamic stochastic synthesis generator (gendy.c).

The definitions below are a shallow embedding of the C source: `MYFLT`
values become real numbers, the per-instance struct fields become a
`GendyState` record, the control-point arrays become total functions
`ℤ → ℝ` updated in place, and the C library helpers (`fmod`, integer
truncation, the 31-bit random generator) are modelled explicitly.
-/

namespace Gendy

noncomputable section

/-- C truncation toward zero, as used by `(int)x` casts and by `fmod`. -/
def cTrunc (r : ℝ) : ℤ := if 0 ≤ r then ⌊r⌋ else ⌈r⌉

/-- C `fmod(x, y)`: `x - y * trunc(x / y)`, the remainder with the sign of `x`. -/
def fmod (x y : ℝ) : ℝ := x - y * (cTrunc (x / y) : ℝ)

/-- The constant `dv2_31` from the source, exactly `2 ^ (-31)`. -/
def dv2_31 : ℝ := 4.656612873077392578125e-10

/-- Reinterpret an unsigned 32-bit value as a signed `int32`. -/
def toInt32 (x : ℤ) : ℤ :=
  if x % 4294967296 < 2147483648 then x % 4294967296 else x % 4294967296 - 4294967296

/-- The source expression `(int32)((unsigned)rnd << 1) - BIPOLAR`
with `BIPOLAR = 0x7FFFFFFF`. -/
def bipolarOf (rnd : ℤ) : ℤ := toInt32 (rnd % 4294967296 * 2) - 2147483647

/-- Modelled from the spec: `csoundRand31`, the Pseudo-Random Sequence of
section 4.2, is declared in the Csound core headers and its body is not part
of the sources at hand.  The spec describes it as a 31-bit full-period linear
congruential generator whose exact multiplier is an open choice; we use the
minimal-standard multiplier 742938285 with modulus `2^31 - 1`.  Every claim
proved about it uses only that it is a deterministic function of the register. -/
def csoundRand31 (x : ℤ) : ℤ := 742938285 * x % 2147483647

/-- The amplitude mirror of `gendy_process_arate` (lines 149-157):
values outside `[-1, 1]` are shifted by `+4` when negative, reduced
`fmod 4`, then folded. -/
def mirror_amp (v : ℝ) : ℝ :=
  if v < -1 ∨ v > 1 then
    let v1 := if v < 0 then v + 4 else v
    let v2 := fmod v1 4
    if v2 > 1 then (if v2 < 3 then 2 - v2 else v2 - 4) else v2
  else v

/-- The duration mirror of `gendy_process_arate` (lines 163-166). -/
def mirror_dur (v : ℝ) : ℝ :=
  if v > 1 then 2 - fmod v 2
  else if v < 0 then 2 - fmod (v + 2) 2
  else v

end

/-! ### Arithmetic helper lemmas for `fmod` -/

lemma cTrunc_of_nonneg {r : ℝ} (h : 0 ≤ r) : cTrunc r = ⌊r⌋ := by
  simp [cTrunc, h]

lemma cTrunc_of_neg {r : ℝ} (h : r < 0) : cTrunc r = ⌈r⌉ := by
  simp [cTrunc, not_le.mpr h]

/-- For a nonnegative dividend and positive divisor, C `fmod` agrees with
`y * Int.fract (x / y)` and lies in `[0, y)`. -/
lemma fmod_nonneg_lt {x y : ℝ} (hx : 0 ≤ x) (hy : 0 < y) :
    0 ≤ fmod x y ∧ fmod x y < y := by
  have hdiv : 0 ≤ x / y := div_nonneg hx hy.le
  have hfr : fmod x y = y * Int.fract (x / y) := by
    rw [fmod, cTrunc_of_nonneg hdiv, Int.fract]
    field_simp
  constructor
  · rw [hfr]
    exact mul_nonneg hy.le (Int.fract_nonneg _)
  · rw [hfr]
    calc y * Int.fract (x / y) < y * 1 := by
          exact mul_lt_mul_of_pos_left (Int.fract_lt_one _) hy
    _ = y := mul_one y

/-- C `fmod` is the identity on `[0, y)`. -/
lemma fmod_eq_self {x y : ℝ} (hx : 0 ≤ x) (hxy : x < y) : fmod x y = x := by
  have hy : 0 < y := lt_of_le_of_lt hx hxy
  have h1 : 0 ≤ x / y := div_nonneg hx hy.le
  have h2 : x / y < 1 := (div_lt_one hy).mpr hxy
  have : ⌊x / y⌋ = 0 := Int.floor_eq_iff.mpr (by constructor <;> simpa)
  rw [fmod, cTrunc_of_nonneg h1, this]
  simp

/-- C `fmod` is the identity on `(-y, 0)` as well (sign of the dividend). -/
lemma fmod_eq_self_of_neg {x y : ℝ} (hx : x < 0) (hxy : -y < x) : fmod x y = x := by
  have hy : 0 < y := by linarith
  have hneg : x / y < 0 := div_neg_of_neg_of_pos hx hy
  have h2 : -1 < x / y := by
    rw [neg_lt, ← neg_div]
    exact (div_lt_one hy).mpr (by linarith)
  have hc : ⌈x / y⌉ = 0 := by
    rw [Int.ceil_eq_iff]
    constructor
    · simpa using h2
    · simpa using hneg.le
  rw [fmod, cTrunc_of_neg hneg, hc]
  simp

/-- C `fmod` on `[y, 2y)` subtracts `y` once. -/
lemma fmod_eq_sub {x y : ℝ} (hy : 0 < y) (h1 : y ≤ x) (h2 : x < 2 * y) :
    fmod x y = x - y := by
  have hd1 : 1 ≤ x / y := (one_le_div hy).mpr h1
  have hd2 : x / y < 2 := by
    rw [div_lt_iff₀ hy]
    linarith
  have hd0 : 0 ≤ x / y := by linarith
  have hfl : ⌊x / y⌋ = 1 := by
    rw [Int.floor_eq_iff]
    constructor
    · exact_mod_cast hd1
    · push_cast
      linarith
  rw [fmod, cTrunc_of_nonneg hd0, hfl]
  push_cast
  ring

end Gendy

namespace Gendy

/-! ### Range of the two mirror steps (claims C2, C3, C9) -/

/-- C9: the amplitude mirror sends `2.5` to `-0.5` and the duration mirror
sends `1.5` to `0.5`, exactly as the spec's boundary example states. -/
theorem mirror_boundary_values :
    mirror_amp (5 / 2) = -(1 / 2) ∧ mirror_dur (3 / 2) = 1 / 2 := by
  constructor
  · have hf : fmod (5 / 2) 4 = 5 / 2 := fmod_eq_self (by norm_num) (by norm_num)
    rw [mirror_amp]
    norm_num [hf]
  · have hf : fmod (3 / 2) 2 = 3 / 2 := fmod_eq_self (by norm_num) (by norm_num)
    rw [mirror_dur]
    norm_num [hf]

/-- C2 counterexample: a `candidateDur` of `2.5` is mirrored to `1.5`,
which is outside `[0, 1]`, refuting the unconditional range claim. -/
theorem mirror_dur_out_of_range_at_five_halves :
    mirror_dur (5 / 2) = 3 / 2 ∧ ¬ mirror_dur (5 / 2) ≤ 1 := by
  have hf : fmod (5 / 2) 2 = 5 / 2 - 2 := fmod_eq_sub (by norm_num) (by norm_num) (by norm_num)
  constructor <;> rw [mirror_dur] <;> norm_num [hf]

/-- C2 amended: for every `candidateDur` in `[-1, 2)` the duration mirror
lands in `[0, 1]`.  (Outside that interval it can escape, see the
counterexample at `2.5`.) -/
theorem mirror_dur_mem_unit_of_bounded (x : ℝ) (h1 : -1 ≤ x) (h2 : x < 2) :
    0 ≤ mirror_dur x ∧ mirror_dur x ≤ 1 := by
  rw [mirror_dur]
  split_ifs with hgt hneg
  · have hf : fmod x 2 = x := fmod_eq_self (by linarith) h2
    rw [hf]
    constructor <;> linarith
  · have hf : fmod (x + 2) 2 = x + 2 := fmod_eq_self (by linarith) (by linarith)
    rw [hf]
    constructor <;> linarith
  · constructor <;> linarith

/-- Witness for the amended C2 theorem at the concrete input `1.5`. -/
theorem mirror_dur_mem_unit_witness :
    0 ≤ mirror_dur (3 / 2) ∧ mirror_dur (3 / 2) ≤ 1 :=
  mirror_dur_mem_unit_of_bounded (3 / 2) (by norm_num) (by norm_num)

/-- C3 counterexample: a `candidateAmp` of `-6` is mirrored to `-2`,
which is outside `[-1, 1]`: a single `+4` shift does not reach `[0, 4)`
from below `-4`, and C `fmod` keeps the sign of its dividend. -/
theorem mirror_amp_out_of_range_at_neg_six :
    mirror_amp (-6) = -2 ∧ ¬ (-1 : ℝ) ≤ mirror_amp (-6) := by
  have hf : fmod (-2) 4 = -2 := fmod_eq_self_of_neg (by norm_num) (by norm_num)
  constructor <;> rw [mirror_amp] <;> norm_num [hf]

/-- C3 amended: for every `candidateAmp` that is at least `-5` the
amplitude mirror lands in `[-1, 1]`.  (Below `-5` it can escape, see the
counterexample at `-6`.) -/
theorem mirror_amp_mem_Icc_of_ge_neg_five (x : ℝ) (h5 : -5 ≤ x) :
    -1 ≤ mirror_amp x ∧ mirror_amp x ≤ 1 := by
  rw [mirror_amp]
  split_ifs with hout hneg
  · have hlt : x < -1 := by
      rcases hout with h | h
      · exact h
      · linarith
    rcases le_or_lt 0 (x + 4) with hge | hlt4
    · have hf : fmod (x + 4) 4 = x + 4 := fmod_eq_self hge (by linarith)
      simp only [hf]
      split_ifs with h1 h3
      · constructor <;> linarith
      · constructor <;> linarith
      · constructor <;> linarith
    · have hf : fmod (x + 4) 4 = x + 4 := fmod_eq_self_of_neg hlt4 (by linarith)
      simp only [hf]
      split_ifs with h1 h3
      · constructor <;> linarith
      · constructor <;> linarith
      · constructor <;> linarith
  · have hgt : x > 1 := by
      rcases hout with h | h
      · push_neg at hneg
        linarith
      · exact h
    have hx0 : (0 : ℝ) ≤ x := by linarith
    obtain ⟨hm0, hm4⟩ := fmod_nonneg_lt hx0 (by norm_num : (0:ℝ) < 4)
    simp only [fmod] at hm0 hm4 ⊢
    split_ifs with h1 h3
    · constructor <;> linarith
    · constructor <;> linarith
    · constructor <;> linarith
  · push_neg at hout
    exact ⟨hout.1, hout.2⟩

/-- Witness for the amended C3 theorem at the concrete input `2.5`. -/
theorem mirror_amp_mem_Icc_witness :
    -1 ≤ mirror_amp (5 / 2) ∧ mirror_amp (5 / 2) ≤ 1 :=
  mirror_amp_mem_Icc_of_ge_neg_five (5 / 2) (by norm_num)

end Gendy

namespace Gendy

noncomputable section

/-- The clamp applied to the shape parameter at the top of
`gendy_distribution` (lines 57-60). -/
def shapeClamp (a : ℝ) : ℝ := if a > 1 then 1 else if a < 0.0001 then 0.0001 else a

/-- The `switch` body of `gendy_distribution` (lines 61-95), applied to the
already clamped shape parameter.  `case 0` and `default` both `break` and
fall through to the shared uniform-bipolar tail. -/
def distBody (which : ℤ) (a : ℝ) (rnd : ℤ) : ℝ :=
  if which = 1 then
    let c := Real.arctan (10 * a)
    let r := (bipolarOf rnd : ℝ) * dv2_31
    (1 / a) * Real.tan (c * r) * 0.1
  else if which = 2 then
    let c := 0.5 + 0.499 * a
    let c2 := Real.log ((1 - c) / c)
    let r := (((rnd : ℝ) * dv2_31 - 0.5) * 0.998 * a) + 0.5
    Real.log ((1 - r) / r) / c2
  else if which = 3 then
    let c := Real.tan (1.5692255 * a)
    let r := Real.tan (1.5692255 * a * (rnd : ℝ) * dv2_31) / c
    (Real.log (r * 0.999 + 0.001) * (-0.1447648)) * 2 - 1
  else if which = 4 then
    let c := Real.sin (1.5707963 * a)
    Real.sin (Real.pi * ((rnd : ℝ) * dv2_31 - 0.5) * a) / c
  else if which = 5 then
    let c := Real.log (1 - 0.999 * a)
    let r := (rnd : ℝ) * dv2_31 * 0.999 * a
    (Real.log (1 - r) / c) * 2 - 1
  else if which = 6 then a
  else (bipolarOf rnd : ℝ) * dv2_31

/-- `gendy_distribution` (lines 54-96): clamp the shape parameter, then
dispatch on the distribution kind. -/
def gendy_distribution (which : ℤ) (a : ℝ) (rnd : ℤ) : ℝ :=
  distBody which (shapeClamp a) rnd

end

/-- The shape-parameter clamp is idempotent. -/
lemma shapeClamp_idem (a : ℝ) : shapeClamp (shapeClamp a) = shapeClamp a := by
  unfold shapeClamp
  split_ifs <;> linarith

/-- C5: for every kind, shape parameter and draw, the sampler behaves
identically to the same call with the parameter clamped into
`[0.0001, 1.0]`; and the pass-through kind `6` returns exactly the clamped
parameter. -/
theorem gendy_distribution_clamp_invariant (which : ℤ) (a : ℝ) (rnd : ℤ) :
    gendy_distribution which a rnd = gendy_distribution which (shapeClamp a) rnd ∧
    gendy_distribution 6 a rnd = shapeClamp a := by
  constructor
  · unfold gendy_distribution
    rw [shapeClamp_idem]
  · unfold gendy_distribution distBody
    norm_num

/-- C6: every kind outside `{0, ..., 6}` falls through the `switch` to the
`default` branch, which computes the same uniform-bipolar mapping as
kind `0`; the shape parameter is unused there. -/
theorem gendy_distribution_default_kind (which : ℤ)
    (h : which < 0 ∨ 6 < which) (a : ℝ) (rnd : ℤ) :
    gendy_distribution which a rnd = gendy_distribution 0 a rnd := by
  have h1 : which ≠ 1 := by rcases h with h | h <;> omega
  have h2 : which ≠ 2 := by rcases h with h | h <;> omega
  have h3 : which ≠ 3 := by rcases h with h | h <;> omega
  have h4 : which ≠ 4 := by rcases h with h | h <;> omega
  have h5 : which ≠ 5 := by rcases h with h | h <;> omega
  have h6 : which ≠ 6 := by rcases h with h | h <;> omega
  unfold gendy_distribution distBody
  norm_num [h1, h2, h3, h4, h5, h6]

/-- Witness for C6 at the concrete out-of-range kind `7`. -/
theorem gendy_distribution_default_kind_witness :
    gendy_distribution 7 (1 / 2) 5 = gendy_distribution 0 (1 / 2) 5 :=
  gendy_distribution_default_kind 7 (by norm_num) (1 / 2) 5

end Gendy

namespace Gendy

/-- The mutable per-instance fields shared by the `GENDY` and `GENDYX`
structs: phase accumulator, current/next breakpoint amplitudes, mirrored
duration, per-sample speed, cyclic index, RNG register and the two
control-point arrays (`memamp`, `memdur`), modelled as total functions. -/
structure GendyState where
  phase : ℝ
  amp : ℝ
  nextamp : ℝ
  dur : ℝ
  speed : ℝ
  index : ℤ
  rand : ℤ
  memamp : ℤ → ℝ
  memdur : ℤ → ℝ

/-- The control-rate inputs read by the processing routines (the cells
`*p->kamp`, `*p->ampdist`, ..., plus the host constant `csound->onedsr`). -/
structure GendyInputs where
  kamp : ℝ
  ampdist : ℝ
  durdist : ℝ
  adpar : ℝ
  ddpar : ℝ
  minfreq : ℝ
  maxfreq : ℝ
  ampscl : ℝ
  durscl : ℝ
  onedsr : ℝ

/-- Resolution of `knum` against `initcps` (lines 141-142):
out-of-range requests are replaced by `initcps`. -/
def resolveKnum (initcps knum : ℤ) : ℤ :=
  if knum > initcps ∨ knum < 1 then initcps else knum

noncomputable section

/-- The breakpoint advance (body of `if (p->phase >= FL(1.0))`,
lines 138-170 / 217-247, identical in both variants): subtract 1 from the
phase, resolve `knum`, step the cyclic index, promote `nextamp` to `amp`,
draw and mirror a new amplitude then a new duration (two RNG draws,
amplitude first), write both back into the store and recompute the speed.
Returns the new state together with the resolved `knum`. -/
def gendy_advance (I : GendyInputs) (initcps knum : ℤ) (s : GendyState) :
    GendyState × ℤ :=
  let knum1 := resolveKnum initcps knum
  let index := (s.index + 1) % knum1
  let r1 := csoundRand31 s.rand
  let dist1 := gendy_distribution (cTrunc I.ampdist) I.adpar r1
  let na := mirror_amp (s.memamp index + I.ampscl * dist1)
  let r2 := csoundRand31 r1
  let dist2 := gendy_distribution (cTrunc I.durdist) I.ddpar r2
  let d := mirror_dur (s.memdur index + I.durscl * dist2)
  let sp := (I.minfreq + (I.maxfreq - I.minfreq) * d) * I.onedsr * (knum1 : ℝ)
  (⟨s.phase - 1, s.nextamp, na, d, sp, index, r2,
    Function.update s.memamp index na, Function.update s.memdur index d⟩, knum1)

/-- The conditional breakpoint advance at the head of each sample
iteration (`if (p->phase >= FL(1.0)) { ... }`, executed once, not in a
loop): its first component is the state whose `phase`, `amp` and `nextamp`
the interpolation of this sample then reads. -/
def gendy_pending (I : GendyInputs) (initcps knum : ℤ) (s : GendyState) :
    GendyState × ℤ :=
  if s.phase ≥ 1 then gendy_advance I initcps knum s else (s, knum)

/-- One iteration of the sample loop of `gendy_process_arate`
(lines 137-173): a single conditional breakpoint advance, the linear
interpolation output, then the phase increment.  Returns the new state,
the (possibly re-resolved) local `knum`, and the output sample. -/
def gendy_step (I : GendyInputs) (initcps knum : ℤ) (s : GendyState) :
    GendyState × ℤ × ℝ :=
  let sk := gendy_pending I initcps knum s
  let s1 := sk.1
  let out := I.kamp * ((1 - s1.phase) * s1.amp + s1.phase * s1.nextamp)
  ({ s1 with phase := s1.phase + s1.speed }, sk.2, out)

/-- One iteration of the sample loop of `gendyx_process_arate`
(lines 216-255): the same conditional advance, then the curve exponents are
clamped to `≥ 0` and written back into their cells, and the power-curve
interpolation produces the output.  Returns the new state, the local
`knum`, the two (possibly clamped) curve cells and the output sample. -/
def gendyx_step (I : GendyInputs) (cu cd : ℝ) (initcps knum : ℤ) (s : GendyState) :
    GendyState × ℤ × ℝ × ℝ × ℝ :=
  let sk := gendy_pending I initcps knum s
  let s1 := sk.1
  let cu1 := if cu < 0 then 0 else cu
  let cd1 := if cd < 0 then 0 else cd
  let curve := if s1.nextamp - s1.amp > 0 then cu1 else cd1
  let out := I.kamp * (s1.amp + s1.phase ^ curve * (s1.nextamp - s1.amp))
  ({ s1 with phase := s1.phase + s1.speed }, sk.2, cu1, cd1, out)

/-- A whole processing block of the linear variant: `n` iterations of
`gendy_step`, threading the state and the local `knum` variable exactly as
the C loop does.  Returns the final state, final `knum` and the output
samples in order. -/
def gendy_block (I : GendyInputs) (initcps : ℤ) :
    ℕ → ℤ → GendyState → GendyState × ℤ × List ℝ
  | 0, knum, s => (s, knum, [])
  | n + 1, knum, s =>
    let r := gendy_step I initcps knum s
    let rest := gendy_block I initcps n r.2.1 r.1
    (rest.1, rest.2.1, r.2.2 :: rest.2.2)

/-- A whole processing block of the curved variant, threading state,
`knum`, and the two curve cells (which the loop clamps in place). -/
def gendyx_block (I : GendyInputs) (initcps : ℤ) :
    ℕ → ℤ → ℝ → ℝ → GendyState → GendyState × ℤ × ℝ × ℝ × List ℝ
  | 0, knum, cu, cd, s => (s, knum, cu, cd, [])
  | n + 1, knum, cu, cd, s =>
    let r := gendyx_step I cu cd initcps knum s
    let rest := gendyx_block I initcps n r.2.1 r.2.2.1 r.2.2.2.1 r.1
    (rest.1, rest.2.1, rest.2.2.1, rest.2.2.2.1, r.2.2.2.2 :: rest.2.2.2.2)

/-- The initialization fill loop (lines 117-122): for each of the `n`
remaining points, draw an amplitude (bipolar mapping) and then a duration
(unipolar mapping), two RNG draws per point, amplitude first. -/
def gendy_fill : ℕ → ℤ → (ℤ → ℝ) → (ℤ → ℝ) → ℤ → ((ℤ → ℝ) × (ℤ → ℝ) × ℤ)
  | 0, _, ma, md, r => (ma, md, r)
  | n + 1, i, ma, md, r =>
    let r1 := csoundRand31 r
    let ma1 := Function.update ma i ((bipolarOf r1 : ℝ) * dv2_31)
    let r2 := csoundRand31 r1
    let md1 := Function.update md i ((r2 : ℝ) * dv2_31)
    gendy_fill n (i + 1) ma1 md1 r2

/-- The clamp applied to the caller's `initcps` cell (lines 107-110):
below 1 it becomes the default 12, above `GENDYMAXCPS = 8192` it is capped. -/
def initcpsClamp (c : ℝ) : ℝ := if c < 1 then 12 else if c > 8192 then 8192 else c

/-- `gendy_init` (lines 98-124): reset the scalar fields, clamp the
`initcps` cell in place, seed the RNG register from the host register and
fill the control-point store.  Returns the initialized state together with
the value left in the caller's `initcps` cell. -/
def gendy_init (hostSeed : ℤ) (initcpsCell : ℝ) : GendyState × ℝ :=
  let cell := initcpsClamp initcpsCell
  let n := (cTrunc cell).toNat
  let r0 := csoundRand31 hostSeed
  let f := gendy_fill n 0 (fun _ => 0) (fun _ => 0) r0
  (⟨1, 0, 0, 0, 100, 0, f.2.2, f.1, f.2.1⟩, cell)

/-- `gendyx_init` (lines 177-203) is textually identical to `gendy_init`
apart from the struct type. -/
def gendyx_init : ℤ → ℝ → GendyState × ℝ := gendy_init

end

end Gendy

namespace Gendy

/-! ### RNG draw discipline (claim C8) -/

/-- C8: a breakpoint advance consumes exactly two RNG draws — the first for
the amplitude perturbation, the second for the duration perturbation —
independently of the selected distribution kinds, and the initialization
fill consumes exactly `2 * n` draws for `n` control points, amplitude first
then duration for each point (so `gendy_init` leaves the register at
`2 * capacity` steps past its seeded value). -/
theorem gendy_rng_draw_discipline (I : GendyInputs) (ic k : ℤ) (s : GendyState)
    (n : ℕ) (i : ℤ) (ma md : ℤ → ℝ) (r : ℤ) (hostSeed : ℤ) (c : ℝ) :
    (gendy_advance I ic k s).1.rand = csoundRand31 (csoundRand31 s.rand) ∧
    (gendy_advance I ic k s).1.nextamp =
      mirror_amp (s.memamp ((s.index + 1) % resolveKnum ic k) +
        I.ampscl * gendy_distribution (cTrunc I.ampdist) I.adpar (csoundRand31 s.rand)) ∧
    (gendy_advance I ic k s).1.dur =
      mirror_dur (s.memdur ((s.index + 1) % resolveKnum ic k) +
        I.durscl * gendy_distribution (cTrunc I.durdist) I.ddpar
          (csoundRand31 (csoundRand31 s.rand))) ∧
    (gendy_fill n i ma md r).2.2 = csoundRand31^[2 * n] r ∧
    (gendy_fill 1 i ma md r).1 i = (bipolarOf (csoundRand31 r) : ℝ) * dv2_31 ∧
    (gendy_fill 1 i ma md r).2.1 i = ((csoundRand31 (csoundRand31 r) : ℤ) : ℝ) * dv2_31 ∧
    (gendy_init hostSeed c).1.rand =
      csoundRand31^[2 * (cTrunc (initcpsClamp c)).toNat] (csoundRand31 hostSeed) := by
  have hfill : ∀ (m : ℕ) (j : ℤ) (fa fd : ℤ → ℝ) (q : ℤ),
      (gendy_fill m j fa fd q).2.2 = csoundRand31^[2 * m] q := by
    intro m
    induction m with
    | zero =>
      intro j fa fd q
      rfl
    | succ m ih =>
      intro j fa fd q
      rw [gendy_fill, ih]
      have : 2 * (m + 1) = 2 * m + 2 := by ring
      rw [this, Function.iterate_add_apply]
      rfl
  refine ⟨rfl, rfl, rfl, hfill n i ma md r, ?_, ?_, ?_⟩
  · simp [gendy_fill]
  · simp [gendy_fill]
  · simp only [gendy_init]
    exact hfill _ _ _ _ _

/-! ### The single-branch advance (claim C1) -/

/-- A concrete state in which the phase accumulator is `2.5` at the start of
a sample; the scale inputs are zero so the stochastic terms vanish and the
speed recomputes to `0`. -/
noncomputable def stuckState : GendyState :=
  ⟨5 / 2, 0, 1, 0, 0, 0, 1, fun _ => 0, fun _ => 0⟩

/-- Inputs with `outputAmp = 1`, both kinds `0`, zero perturbation scales and
`minFreq = maxFreq = 0`. -/
noncomputable def stuckInputs : GendyInputs :=
  ⟨1, 0, 0, 1 / 2, 1 / 2, 0, 0, 0, 0, 1⟩

/-- C1 counterexample: at the concrete state `stuckState`, whose phase is
`2.5 ≥ 1` at the start of a sample, the conditional advance fires exactly
once, so the phase the interpolation then reads is `1.5`, not below `1.0`,
and the sample output is `-0.5 = (1 - 1.5) * 1 + 1.5 * 0`; an
implementation that loops until `phase < 1` would have advanced twice and
interpolated at phase `0.5`. -/
theorem gendy_single_branch_keeps_phase_ge_one :
    stuckState.phase ≥ 1 ∧
    (gendy_pending stuckInputs 1 1 stuckState).1.phase = 3 / 2 ∧
    ¬ (gendy_pending stuckInputs 1 1 stuckState).1.phase < 1 ∧
    (gendy_step stuckInputs 1 1 stuckState).2.2 = -(1 / 2) := by
  have hma : mirror_amp 0 = 0 := by
    rw [mirror_amp]
    norm_num
  have hmd : mirror_dur 0 = 0 := by
    rw [mirror_dur]
    norm_num
  refine ⟨?_, ?_, ?_, ?_⟩ <;>
    norm_num [gendy_step, gendy_pending, gendy_advance, stuckState, stuckInputs, resolveKnum, hma, hmd]

/-- C1 amended: in every sample iteration the engine performs at most one
breakpoint advance (a single conditional, not a loop): the phase used for
the interpolation of the sample is the start-of-sample phase minus one when
that phase is `≥ 1`, and it is below `1.0` precisely when the sample began
with phase below `2.0` — configurations that push the phase to `2.0` or
beyond drop an advance and interpolate with a phase `≥ 1.0`. -/
theorem gendy_single_advance_phase (I : GendyInputs) (ic k : ℤ) (s : GendyState) :
    (gendy_pending I ic k s).1.phase =
      (if s.phase ≥ 1 then s.phase - 1 else s.phase) ∧
    ((gendy_pending I ic k s).1.phase < 1 ↔ s.phase < 2) ∧
    (gendy_step I ic k s).2.2 =
      I.kamp * ((1 - (gendy_pending I ic k s).1.phase) * (gendy_pending I ic k s).1.amp +
        (gendy_pending I ic k s).1.phase * (gendy_pending I ic k s).1.nextamp) := by
  have h1 : (gendy_pending I ic k s).1.phase =
      (if s.phase ≥ 1 then s.phase - 1 else s.phase) := by
    unfold gendy_pending
    split_ifs with h
    · simp [gendy_advance]
    · rfl
  refine ⟨h1, ?_, rfl⟩
  rw [h1]
  split_ifs with h
  · constructor <;> intro <;> linarith
  · push_neg at h
    constructor <;> intro <;> linarith

/-! ### First output sample after initialization (claim C10) -/

/-- C10: for every host seed, every requested capacity and every
configuration, the first sample produced by the linear variant after
initialization is `0`: the init leaves `amp = nextAmp = 0` and
`phase = 1.0`, the first advance moves `nextAmp` into `amp` and resets the
phase to `0`, so the interpolation yields `outputAmp * ((1 - 0) * 0 + 0 * nextAmp) = 0`. -/
theorem gendy_first_sample_zero (hostSeed : ℤ) (c : ℝ) (I : GendyInputs) (knum : ℤ) :
    (gendy_step I (cTrunc (gendy_init hostSeed c).2) knum (gendy_init hostSeed c).1).2.2 = 0 := by
  simp [gendy_step, gendy_pending, gendy_advance, gendy_init]

/-! ### Write-back of clamped configuration values (claim C4) -/

/-- C4 counterexample: initialization with the caller's `initcps` cell
holding `0.5` leaves `12` in that very cell — the clamp is written back
through the caller-supplied pointer, so it is not local. -/
theorem gendy_init_writes_back_initcps :
    (gendy_init 1 (1 / 2)).2 = 12 ∧ (1 / 2 : ℝ) ≠ 12 := by
  constructor
  · simp only [gendy_init]
    rw [initcpsClamp]
    norm_num
  · norm_num

/-- C4 amended: the `shapeParam` and `activeCount` clamps are local, but
initialization stores the clamped capacity back into the caller's
`initcps` cell, and every sample of the curved variant stores the clamped
curve exponents back into the `curveUp`/`curveDown` cells. -/
theorem clamped_cells_written_back (hostSeed : ℤ) (c : ℝ) (I : GendyInputs)
    (cu cd : ℝ) (ic k : ℤ) (s : GendyState) :
    (gendy_init hostSeed c).2 = initcpsClamp c ∧
    (gendyx_step I cu cd ic k s).2.2.1 = (if cu < 0 then 0 else cu) ∧
    (gendyx_step I cu cd ic k s).2.2.2.1 = (if cd < 0 then 0 else cd) := by
  refine ⟨rfl, ?_, ?_⟩ <;> rfl

end Gendy

namespace Gendy

/-! ### Unit curve exponents collapse to linear interpolation (claim C7) -/

/-- One step of the curved variant with both curve cells at `1` agrees with
one step of the linear variant: same state, same `knum`, unchanged cells,
same output (`phase ^ 1 = phase` makes the power curve linear). -/
lemma gendyx_step_unit_curves (I : GendyInputs) (ic k : ℤ) (s : GendyState) :
    gendyx_step I 1 1 ic k s =
      ((gendy_step I ic k s).1, (gendy_step I ic k s).2.1, 1, 1,
        (gendy_step I ic k s).2.2) := by
  unfold gendyx_step gendy_step
  have hcu : ¬ (1 : ℝ) < 0 := by norm_num
  simp only [if_neg hcu, ite_self, Real.rpow_one]
  refine Prod.ext rfl (Prod.ext rfl ?_)
  simp only
  ring_nf

/-- C7: a whole block of the curved variant run with `curveUp = 1` and
`curveDown = 1` reproduces the linear variant sample for sample from the
same initial state and inputs: final state, final `knum` and the full list
of output samples coincide (and the curve cells stay at `1`). -/
theorem gendyx_unit_curves_eq_gendy (I : GendyInputs) (ic : ℤ) (n : ℕ)
    (k : ℤ) (s : GendyState) :
    gendyx_block I ic n k 1 1 s =
      ((gendy_block I ic n k s).1, (gendy_block I ic n k s).2.1, 1, 1,
        (gendy_block I ic n k s).2.2) := by
  induction n generalizing k s with
  | zero => rfl
  | succ n ih =>
    rw [gendyx_block, gendy_block]
    simp only [gendyx_step_unit_curves, ih]

end Gendy
